import Mathlib

/-!
Verification development for the fjord language pipeline: a shallow
embedding of the lexer contract, the error-recovering parser
(src/src/parser.rs, src/src/parser/expr.rs, src/src/parser/statement.rs)
and the tree-walking evaluator (src/src/eval.rs), together with proofs
about parsing losslessness, operator precedence and associativity,
sequence evaluation, arity checking, scoping and error propagation.

Recursive parsing and evaluation are modelled with an explicit fuel
parameter: the Rust functions are general-recursive (and, as proved
below, actually diverge on some inputs), so a fuel-indexed step function
is the faithful total encoding.  A result of NONE (parser) or
Outcome.noFuel (evaluator) means the recursion budget was exhausted.
-/

/-- Token and node kinds of the concrete syntax tree.  Terminal kinds
follow the data model of the spec (atoms, digit runs, string literals,
the punctuation and operator tokens, the keywords let/if/then/else/
true/false, whitespace, end-of-line and an error kind for unrecognized
characters); composite kinds are the node kinds built by the parser.
The variant set models the SyntaxKind enumeration. -/
inductive NodeKind where
  | atom
  | digits
  | stringLiteral
  | equals
  | doubleColon
  | pipe
  | dollar
  | plus
  | minus
  | star
  | slash
  | letKw
  | ifKw
  | thenKw
  | elseKw
  | trueKw
  | falseKw
  | whitespace
  | eol
  | error
  | root
  | bindingDef
  | functionCall
  | functionCallParams
  | lambda
  | lambdaParams
  | bindingUsage
  | binOp
  | ifNode
  | block
  deriving DecidableEq, Repr

/-- A lexeme: a kind together with the exact source text it covers. -/
structure Lexeme where
  kind : NodeKind
  text : String
  deriving DecidableEq, Repr

/-- Character class for the first character of an atom. -/
def isAtomStart (c : Char) : Bool := c.isAlpha

/-- Character class for the remaining characters of an atom
(bare words may contain hyphens, e.g. foo-bar). -/
def isAtomChar (c : Char) : Bool := c.isAlphanum || c = '-'

/-- Keyword classification of an atom text. -/
def keywordKind (s : String) : NodeKind :=
  if s = "let" then .letKw
  else if s = "if" then .ifKw
  else if s = "then" then .thenKw
  else if s = "else" then .elseKw
  else if s = "true" then .trueKw
  else if s = "false" then .falseKw
  else .atom

/-- Longest prefix of cs satisfying p, together with the rest. -/
def spanChars (p : Char → Bool) : List Char → List Char × List Char
  | [] => ([], [])
  | c :: cs =>
    if p c then
      let (tk, rest) := spanChars p cs
      (c :: tk, rest)
    else ([], c :: cs)

/-- Modelled from the spec: the raw tokenizer (an external collaborator;
the lexer module that this parser snapshot uses is not under src/).  It
turns characters into an ordered lexeme stream: atoms and the keywords,
digit runs, string literals with their quotes retained, the operator and
punctuation tokens, runs of spaces as whitespace, a newline as an
end-of-line token, and any unrecognized character as an error lexeme,
so that every input character is covered by exactly one lexeme.
The decision for one character (and the characters it munches) is the
nextTok function below; this first helper lexes a quoted string
literal (quotes retained), or an error lexeme for an unterminated
quote. -/
def strTok (c : Char) (cs : List Char) : Lexeme × List Char :=
  match spanChars (fun ch => ch ≠ '"') cs with
  | (tk, r :: rest) =>
    if r = '"' then (⟨.stringLiteral, String.mk (c :: tk ++ [r])⟩, rest)
    else (⟨.error, String.mk [c]⟩, cs)
  | (_, []) => (⟨.error, String.mk [c]⟩, cs)

/-- Lexes a double colon, or an error lexeme for a lone colon. -/
def colonTok (cs : List Char) : Lexeme × List Char :=
  match cs with
  | c2 :: rest =>
    if c2 = ':' then (⟨.doubleColon, "::"⟩, rest)
    else (⟨.error, ":"⟩, c2 :: rest)
  | [] => (⟨.error, ":"⟩, [])

def nextTok (c : Char) (cs : List Char) : Lexeme × List Char :=
  if isAtomStart c then
    let (tk, rest) := spanChars isAtomChar cs
    let text := String.mk (c :: tk)
    (⟨keywordKind text, text⟩, rest)
  else if c.isDigit then
    let (tk, rest) := spanChars Char.isDigit cs
    (⟨.digits, String.mk (c :: tk)⟩, rest)
  else if c = ' ' then
    let (tk, rest) := spanChars (fun ch => ch = ' ') cs
    (⟨.whitespace, String.mk (c :: tk)⟩, rest)
  else if c = '\n' then (⟨.eol, "\n"⟩, cs)
  else if c = '"' then strTok c cs
  else if c = ':' then colonTok cs
  else
    let kind : NodeKind :=
      if c = '=' then .equals
      else if c = '|' then .pipe
      else if c = '$' then .dollar
      else if c = '+' then .plus
      else if c = '-' then .minus
      else if c = '*' then .star
      else if c = '/' then .slash
      else .error
    (⟨kind, String.mk [c]⟩, cs)

/-- The lexeme stream of a character list: one lexeme per nextTok step
(the fuel is an upper bound on the number of lexemes; the caller
passes the character count plus one, which always suffices because
every step consumes at least one character). -/
def lexGo : Nat → List Char → List Lexeme
  | 0, _ => []
  | _, [] => []
  | fuel + 1, c :: cs => (nextTok c cs).1 :: lexGo fuel (nextTok c cs).2

/-- Lexes a whole input string. -/
def lex (s : String) : List Lexeme := lexGo (s.length + 1) s.data

/-- A node of the lossless concrete syntax tree: either a leaf token
carrying its exact source text, or an interior node owning an ordered
sequence of children. -/
inductive GTree where
  | token (kind : NodeKind) (text : String)
  | node (kind : NodeKind) (children : List GTree)

mutual

/-- Decidable equality of trees (written out because deriving does not
handle the nested list of children on this toolchain). -/
def gtreeDecEq : (a b : GTree) → Decidable (a = b)
  | .token k s, .token k2 s2 =>
    if h1 : k = k2 then
      if h2 : s = s2 then .isTrue (by rw [h1, h2])
      else .isFalse (fun h => by cases h; exact h2 rfl)
    else .isFalse (fun h => by cases h; exact h1 rfl)
  | .node k cs, .node k2 cs2 =>
    if h1 : k = k2 then
      match gtreeDecEqList cs cs2 with
      | .isTrue h2 => .isTrue (by rw [h1, h2])
      | .isFalse h2 => .isFalse (fun h => by cases h; exact h2 rfl)
    else .isFalse (fun h => by cases h; exact h1 rfl)
  | .token _ _, .node _ _ => .isFalse (fun h => GTree.noConfusion h)
  | .node _ _, .token _ _ => .isFalse (fun h => GTree.noConfusion h)

/-- Decidable equality of lists of trees. -/
def gtreeDecEqList : (as bs : List GTree) → Decidable (as = bs)
  | [], [] => .isTrue rfl
  | [], _ :: _ => .isFalse (fun h => List.noConfusion h)
  | _ :: _, [] => .isFalse (fun h => List.noConfusion h)
  | a :: as, b :: bs =>
    match gtreeDecEq a b, gtreeDecEqList as bs with
    | .isTrue h1, .isTrue h2 => .isTrue (by rw [h1, h2])
    | .isFalse h1, _ => .isFalse (fun h => by cases h; exact h1 rfl)
    | .isTrue _, .isFalse h2 => .isFalse (fun h => by cases h; exact h2 rfl)

end

instance : DecidableEq GTree := gtreeDecEq

mutual

/-- Rendering of a tree for diagnostics. -/
def gtreeStr : GTree → String
  | .token k s => "(tok " ++ reprStr k ++ " " ++ reprStr s ++ ")"
  | .node k cs => "(node " ++ reprStr k ++ " [" ++ gtreeStrList cs ++ "])"

/-- Rendering of a list of trees for diagnostics. -/
def gtreeStrList : List GTree → String
  | [] => ""
  | t :: ts => gtreeStr t ++ " " ++ gtreeStrList ts

end

instance : Repr GTree := ⟨fun t _ => gtreeStr t⟩

/-- Kind of a tree element. -/
def GTree.kind : GTree → NodeKind
  | .token k _ => k
  | .node k _ => k

mutual

/-- Width in characters of a tree element (the length of the source
text it covers; ranges in rowan are derived from token text lengths). -/
def tlen : GTree → Nat
  | .token _ s => s.length
  | .node _ cs => tlenList cs

/-- Total width of a list of tree elements. -/
def tlenList : List GTree → Nat
  | [] => 0
  | t :: ts => tlen t + tlenList ts

end

mutual

/-- Concatenated source text of all leaf tokens of a tree, in order. -/
def leafText : GTree → String
  | .token _ s => s
  | .node _ cs => leafTextList cs

/-- Concatenated leaf text of a list of tree elements. -/
def leafTextList : List GTree → String
  | [] => ""
  | t :: ts => leafText t ++ leafTextList ts

end

/-- Concatenated text of a lexeme stream. -/
def lexText : List Lexeme → String
  | [] => ""
  | l :: ls => l.text ++ lexText ls

/-- One frame of the green-node builder: the kind given to start_node
and the children emitted so far. -/
abbrev Frame := NodeKind × List GTree

/-- State of the parser: the remaining lexeme stream, the builder stack
(top frame first; the bottom frame is the Root node being built) and
the accumulated syntax-error messages.  This models the Parser struct
of src/src/parser.rs (the unused last_lexeme_range field is dropped,
and the SyntaxError of this snapshot carries only a message). -/
structure PState where
  input : List Lexeme
  stack : List Frame
  errors : List String
  deriving Repr

/-- Appends a finished child to the top builder frame
(GreenNodeBuilder.token / the child append of finish_node). -/
def pushChild (t : GTree) (st : PState) : PState :=
  match st.stack with
  | [] => st
  | (k, cs) :: rest => { st with stack := (k, cs ++ [t]) :: rest }

/-- Models Parser::peek: the kind of the next lexeme, if any. -/
def PState.peek (st : PState) : Option NodeKind := st.input.head?.map Lexeme.kind

/-- Models Parser::at_end. -/
def PState.atEnd (st : PState) : Bool := st.input.isEmpty

/-- Models Parser::at_end_or_eol. -/
def PState.atEndOrEol (st : PState) : Bool :=
  st.atEnd || st.peek = some .eol

/-- Models Parser::bump: consume the next lexeme and emit it as a token
of its own kind. -/
def bump (st : PState) : PState :=
  match st.input with
  | [] => st
  | l :: rest => pushChild (.token l.kind l.text) { st with input := rest }

/-- Worker for Parser::skip: consumes lexemes whose kind is in ks,
appending each as a token to the given child list. -/
def skipGo (ks : List NodeKind) : List Lexeme → List GTree → List Lexeme × List GTree
  | [], acc => ([], acc)
  | l :: rest, acc =>
    if l.kind ∈ ks then skipGo ks rest (acc ++ [.token l.kind l.text])
    else (l :: rest, acc)

/-- Models Parser::skip: consume while the next lexeme kind is in ks,
emitting each consumed lexeme as a token of its own kind. -/
def skipKinds (ks : List NodeKind) (st : PState) : PState :=
  match st.stack with
  | [] => { st with input := (skipGo ks st.input []).1 }
  | (k, cs) :: rest =>
    let out := skipGo ks st.input cs
    { st with input := out.1, stack := (k, out.2) :: rest }

/-- Models Parser::skip_ws. -/
def skipWs (st : PState) : PState := skipKinds [.whitespace] st

/-- Models Parser::skip_ws_and_eol. -/
def skipWsAndEol (st : PState) : PState := skipKinds [.whitespace, .eol] st

/-- Models Parser::error: record the message, and consume one lexeme as
an Error token unless the parser is at end-of-line or end of input. -/
def errorOp (msg : String) (st : PState) : PState :=
  let st := { st with errors := st.errors ++ [msg] }
  match st.input with
  | [] => st
  | l :: rest =>
    if l.kind = .eol then st
    else pushChild (.token .error l.text) { st with input := rest }

/-- Models GreenNodeBuilder.start_node. -/
def startNode (k : NodeKind) (st : PState) : PState :=
  { st with stack := (k, []) :: st.stack }

/-- Models GreenNodeBuilder.finish_node: pop the top frame and append
the finished node to the frame below. -/
def finishNode (st : PState) : PState :=
  match st.stack with
  | (k, cs) :: (k2, cs2) :: rest =>
    { st with stack := (k2, cs2 ++ [.node k cs]) :: rest }
  | _ => st

/-- Models GreenNodeBuilder.checkpoint: the current number of children
of the top frame, used later to wrap a suffix retroactively. -/
def checkpoint (st : PState) : Nat :=
  match st.stack with
  | [] => 0
  | (_, cs) :: _ => cs.length

/-- Models GreenNodeBuilder.start_node_at: open a new node whose first
children are everything emitted into the top frame since the
checkpoint (the retroactive wrapping used for left-associative
precedence climbing). -/
def startNodeAt (cp : Nat) (k : NodeKind) (st : PState) : PState :=
  match st.stack with
  | [] => st
  | (k0, cs) :: rest =>
    { st with stack := (k, cs.drop cp) :: (k0, cs.take cp) :: rest }

/-- The binary operators. -/
inductive Op where
  | add
  | sub
  | mul
  | div
  deriving DecidableEq, Repr

/-- Models infix_bp of src/src/parser/expr.rs: binding powers giving
star and slash a tighter hold than plus and minus, with the right
power above the left so operators associate to the left. -/
def opBp : Op → Nat × Nat
  | .add | .sub => (1, 2)
  | .mul | .div => (3, 4)

/-- Operator for an operator-token kind, if it is one. -/
def opOfKind : NodeKind → Option Op
  | .plus => some .add
  | .minus => some .sub
  | .star => some .mul
  | .slash => some .div
  | _ => none

/-- Consume the next lexeme when it has the expected kind, and record
the given recovery error otherwise (the if-let-peek-then-bump-else-
error shape used for binding names, equals signs and the atom of a
binding usage). -/
def expectKind (k : NodeKind) (msg : String) (st : PState) : PState :=
  if st.peek = some k then bump st else errorOp msg st

/-- Models parse_contained_expr of src/src/parser/expr.rs together with
parse_binding_usage (both are non-recursive): digits, string literals
and atoms are bumped directly, a dollar opens a BindingUsage node, and
anything else records an expected-expression error. -/
def parseContainedExpr (st : PState) : PState :=
  match st.peek with
  | some .digits | some .stringLiteral | some .atom => bump st
  | some .dollar =>
    finishNode (expectKind .atom "expected atom" (bump (startNode .bindingUsage st)))
  | _ => errorOp "expected expression" st

/-- Call labels of the mutually recursive parser functions, used so the
whole parser is a single function that is structurally recursive on
its fuel (and therefore reducible by the kernel).  rootLoop is the
item loop of Parser::parse; item is parse_item; statement is
parse_statement; exprBp is parse_expr_bp (parse_expr is exprBp 0);
opLoop is the operator loop inside parse_expr_bp (carrying the
checkpoint and the minimum binding power); oneExpr is parse_one_expr;
funCall/fcLoop are parse_function_call and its params loop;
lambdaFn/lpLoop are parse_lambda and its params loop. -/
inductive PCall where
  | rootLoop
  | item
  | statement
  | exprBp (minBp : Nat)
  | opLoop (cp : Nat) (minBp : Nat)
  | oneExpr
  | funCall
  | fcLoop
  | lambdaFn
  | lpLoop
  deriving Repr

/-- The parser: a direct translation of Parser::parse and the parsing
functions of src/src/parser/expr.rs and src/src/parser/statement.rs,
driven by the builder operations above.  parse_item is modelled from
the spec (the item module is not under src/): an item is a binding
definition when the next lexeme is the let keyword, and otherwise a
bare expression, with no extra wrapping node (matching the tree shapes
in the parser tests of src/src/parser.rs). -/
def pgo : Nat → PCall → PState → Option PState
  | 0, _, _ => none
  | fuel + 1, c, st =>
    match c with
    | .rootLoop =>
      if st.atEnd then some st
      else
        match pgo fuel .item st with
        | none => none
        | some st =>
          let st := skipWs st
          match st.peek with
          | some .eol => pgo fuel .rootLoop (bump st)
          | none => some st
          | some _ => pgo fuel .rootLoop (errorOp "expected end of line" st)
    | .item =>
      if st.peek = some .letKw then pgo fuel .statement st
      else pgo fuel (.exprBp 0) st
    | .statement =>
      let st := startNode .bindingDef st
      let st := bump st
      let st := skipWs st
      let st := expectKind .atom "expected binding name" st
      let st := skipWs st
      let st := expectKind .equals "expected equals sign" st
      let st := skipWs st
      match pgo fuel (.exprBp 0) st with
      | none => none
      | some st => some (finishNode st)
    | .exprBp minBp =>
      let cp := checkpoint st
      match pgo fuel .oneExpr st with
      | none => none
      | some st => pgo fuel (.opLoop cp minBp) (skipWs st)
    | .opLoop cp minBp =>
      match st.peek with
      | some .eol => some st
      | none => some st
      | some k =>
        match opOfKind k with
        | none => pgo fuel (.opLoop cp minBp) (errorOp "expected operator" st)
        | some op =>
          let (leftBp, rightBp) := opBp op
          if leftBp < minBp then some st
          else
            let st := startNodeAt cp .binOp st
            let st := bump st
            let st := skipWs st
            match pgo fuel (.exprBp rightBp) st with
            | none => none
            | some st => pgo fuel (.opLoop cp minBp) (finishNode st)
    | .oneExpr =>
      match st.peek with
      | some .digits | some .stringLiteral | some .dollar =>
        some (parseContainedExpr st)
      | some .atom => pgo fuel .funCall st
      | some .pipe => pgo fuel .lambdaFn st
      | _ => some (errorOp "expected expression" st)
    | .funCall =>
      let st := startNode .functionCall st
      let st := bump st
      let st := skipWs st
      let st := startNode .functionCallParams st
      match pgo fuel .fcLoop st with
      | none => none
      | some st => some (finishNode (finishNode st))
    | .fcLoop =>
      if st.atEndOrEol then some st
      else pgo fuel .fcLoop (skipWs (parseContainedExpr st))
    | .lambdaFn =>
      let st := startNode .lambda st
      let st := startNode .lambdaParams st
      let st := bump st
      let st := skipWs st
      match pgo fuel .lpLoop st with
      | none => none
      | some st =>
        let st := finishNode st
        let st := skipWs st
        match pgo fuel (.exprBp 0) st with
        | none => none
        | some st => some (finishNode st)
    | .lpLoop =>
      if st.atEnd then some st
      else
        match st.peek with
        | some .atom => pgo fuel .lpLoop (skipWs (bump st))
        | some .pipe => some (bump st)
        | _ => pgo fuel .lpLoop (skipWs (errorOp "expected atom or pipe" st))

/-- Folds a (possibly unbalanced) builder stack into a single tree; at
a normal end of parsing the stack is exactly the Root frame. -/
def collapseStack : List Frame → GTree
  | [] => .node .root []
  | [(k, cs)] => .node k cs
  | (k, cs) :: rest =>
    match collapseStack rest with
    | .node k2 cs2 => .node k2 (cs2 ++ [.node k cs])
    | t => t

/-- The initial parser state for a lexeme stream. -/
def initState (ls : List Lexeme) : PState :=
  { input := ls, stack := [(.root, [])], errors := [] }

/-- Models Parser::parse on an already-lexed stream: open the Root
node, skip leading whitespace and blank lines, run the item loop, and
return the finished tree plus the accumulated syntax errors (none when
the recursion budget runs out, which genuinely happens for some inputs:
the lambda-parameter recovery loop of parse_lambda never consumes an
end-of-line lexeme). -/
def parseLexemes (fuel : Nat) (ls : List Lexeme) : Option (GTree × List String) :=
  match pgo fuel .rootLoop (skipWsAndEol (initState ls)) with
  | none => none
  | some st => some (collapseStack st.stack, st.errors)

/-- Parsing from source text: lex, then parse. -/
def parseSource (fuel : Nat) (s : String) : Option (GTree × List String) :=
  parseLexemes fuel (lex s)

/-- Syntax errors of a parse of source text. -/
def parseErrors (fuel : Nat) (s : String) : Option (List String) :=
  (parseSource fuel s).map Prod.snd

/-- Children of a list of trees paired with their absolute offsets (a
child's range starts where the previous sibling's text ends; this is
how rowan derives ranges from token lengths). -/
def childPos : List GTree → Nat → List (GTree × Nat)
  | [], _ => []
  | t :: ts, off => (t, off) :: childPos ts (off + tlen t)

/-- Children with offsets of a node element (none for a token). -/
def nodeChildPos (t : GTree) (off : Nat) : List (GTree × Nat) :=
  match t with
  | .node _ cs => childPos cs off
  | .token _ _ => []

/-- Whether a kind is one of the expression kinds of the ExprKind
discriminated union of the AST layer (nodes: BinOp, If, FunctionCall,
Lambda, BindingUsage, Block; tokens: Atom, Digits, StringLiteral and
the boolean keywords). -/
def isExprKind : NodeKind → Bool
  | .binOp | .ifNode | .functionCall | .lambda | .bindingUsage | .block
  | .atom | .digits | .stringLiteral | .trueKw | .falseKw => true
  | _ => false

/-- Whether an element casts to an Item: a BindingDef or an expression
(the fixed priority order of the Item union). -/
def isItemKind (k : NodeKind) : Bool :=
  k = .bindingDef || isExprKind k

/-- Modelled from the spec: the AST accessors of the view layer (the
current ast module is not under src/) filter a node's immediate
children by kind and return the first match; this selects the
expression-children of a node, with their offsets, in order. -/
def exprChildren (t : GTree) (off : Nat) : List (GTree × Nat) :=
  (nodeChildPos t off).filter fun p => isExprKind p.1.kind

/-- Item-children of a node, with offsets (Root.items / Block.items). -/
def itemChildren (t : GTree) (off : Nat) : List (GTree × Nat) :=
  (nodeChildPos t off).filter fun p => isItemKind p.1.kind

/-- Top-level items of a parsed tree (Root.items with the root at
offset zero). -/
def root_items (t : GTree) : List (GTree × Nat) := itemChildren t 0

/-- Text of a token element (empty for a node). -/
def tokText : GTree → String
  | .token _ s => s
  | .node _ _ => ""

/-- First token child of one of the given kinds, with its absolute
range (used for BindingDef/BindingUsage.binding_name, FunctionCall.name
and BinOp.op). -/
def firstTokenOfKinds (ks : List NodeKind) (t : GTree) (off : Nat) :
    Option (String × Nat × Nat) :=
  match (nodeChildPos t off).filter
      (fun p => match p.1 with | .token k _ => k ∈ ks | .node _ _ => false) with
  | [] => none
  | (tk, o) :: _ => some (tokText tk, o, o + tlen tk)

/-- Models binding_name: the text of the first Atom token child. -/
def bindingNameOf (t : GTree) : Option String :=
  (firstTokenOfKinds [.atom] t 0).map Prod.fst

/-- Models BinOp.op together with as_op: the first operator token child
interpreted as an Op. -/
def binOpOf (t : GTree) : Option Op :=
  match firstTokenOfKinds [.plus, .minus, .star, .slash] t 0 with
  | none => none
  | some (s, _, _) =>
    if s = "+" then some .add
    else if s = "-" then some .sub
    else if s = "*" then some .mul
    else if s = "/" then some .div
    else none

/-- Models FunctionCall.params: the first FunctionCallParams child
node, with its offset. -/
def paramsNodeOf (t : GTree) (off : Nat) : Option (GTree × Nat) :=
  match (nodeChildPos t off).filter (fun p => p.1.kind = .functionCallParams) with
  | [] => none
  | p :: _ => some p

/-- Models Lambda.param_names: the Atom token texts inside the first
LambdaParams child node (none when that node is missing, in which case
the evaluator's unwrap is an abrupt fault). -/
def lamParamNames (t : GTree) : Option (List String) :=
  match (nodeChildPos t 0).filter (fun p => p.1.kind = .lambdaParams) with
  | [] => none
  | (pn, _) :: _ =>
    some ((nodeChildPos pn 0).filterMap fun p =>
      match p.1 with
      | .token .atom s => some s
      | _ => none)

/-- Models Lambda.body: the first expression-child of the lambda node
(the LambdaParams node is not an expression). -/
def lamBody (t : GTree) (off : Nat) : Option (GTree × Nat) :=
  (exprChildren t off).head?

/-- Numeric value of a digit-run token text (Digits::eval does
text.parse().unwrap(); a non-numeric text would be an abrupt fault). -/
def digitsVal (s : String) : Option Int :=
  if s ≠ "" && s.data.all Char.isDigit then
    some (Int.ofNat (s.data.foldl (fun a c => a * 10 + (c.toNat - 48)) 0))
  else none

/-- Models StringLiteral::eval: slice off the surrounding quotes. -/
def stripQuotes (s : String) : String :=
  String.mk ((s.data.drop 1).dropLast)

/-- Runtime type tags of values. -/
inductive Ty where
  | nilTy
  | numberTy
  | strTy
  | boolTy
  | lambdaTy
  deriving DecidableEq, Repr

/-- Modelled from the spec: the Val union of the value module (not
under src/): Nil, Number (integer), Str, Bool, and Lambda.  A lambda
value holds only the lambda syntax node (with the absolute offset it
was parsed at, standing for the ranges the node retains); it holds no
environment reference. -/
inductive Val where
  | nil
  | num (n : Int)
  | str (s : String)
  | bool (b : Bool)
  | lam (t : GTree) (off : Nat)
  deriving DecidableEq, Repr

/-- Type tag of a value. -/
def Val.ty : Val → Ty
  | .nil => .nilTy
  | .num _ => .numberTy
  | .str _ => .strTy
  | .bool _ => .boolTy
  | .lam _ _ => .lambdaTy

/-- Modelled from the spec: textual display representation used for
external-command arguments: numbers and strings qualify; nil, booleans
and lambdas do not. -/
def Val.displayRepr : Val → Option String
  | .num n => some (toString n)
  | .str s => some s
  | _ => none

/-- Modelled from the spec: the evaluation error kinds of the error
module (not under src/), as enumerated in the spec's error-handling
design. -/
inductive EvalErrorKind where
  | bindingDoesNotExist
  | funcOrCommandDoesNotExist
  | callNonLambda (ty : Ty)
  | tooFewParams
  | tooManyParams
  | binOpOnNonNumbers (lhsTy rhsTy : Ty)
  | nonBoolCond
  | undisplayableCommandArg
  | failedRunningCommand
  | divisionByZero
  deriving DecidableEq, Repr

/-- An evaluation error: a kind paired with the source range
responsible (start and end offsets). -/
structure EvalError where
  kind : EvalErrorKind
  lo : Nat
  hi : Nat
  deriving DecidableEq, Repr

/-- Result of one evaluation: a value, a located evaluation error, an
abrupt process fault (a Rust panic, e.g. division by zero or an
unwrap of a missing child), or exhaustion of the recursion budget. -/
inductive Outcome where
  | ok (v : Val)
  | err (e : EvalError)
  | fault
  | noFuel
  deriving DecidableEq, Repr

/-- Modelled from the spec: the environment (the env module is not
under src/): a chain of scopes, each owning a name-to-value mapping
and an optional parent; the root scope also owns the external command
cache (a name-to-path mapping). -/
inductive Env where
  | root (bindings : List (String × Val)) (commands : List (String × String))
  | child (bindings : List (String × Val)) (parent : Env)
  deriving DecidableEq, Repr

/-- Insert-or-overwrite into an association list (last write wins). -/
def updateAssoc (bs : List (String × Val)) (n : String) (v : Val) :
    List (String × Val) :=
  match bs with
  | [] => [(n, v)]
  | (m, w) :: rest =>
    if m = n then (m, v) :: rest else (m, w) :: updateAssoc rest n v

/-- Lookup in an association list. -/
def lookupAssoc (bs : List (String × Val)) (n : String) : Option Val :=
  match bs with
  | [] => none
  | (m, w) :: rest => if m = n then some w else lookupAssoc rest n

/-- Models Env::store_binding: a local insert/overwrite in the current
scope. -/
def store_binding : Env → String → Val → Env
  | .root bs cmds, n, v => .root (updateAssoc bs n v) cmds
  | .child bs p, n, v => .child (updateAssoc bs n v) p

/-- Models Env::get_binding: walk the scope chain outward until the
name is found, none if the chain is exhausted. -/
def get_binding : Env → String → Option Val
  | .root bs _, n => lookupAssoc bs n
  | .child bs p, n =>
    match lookupAssoc bs n with
    | some v => some v
    | none => get_binding p n

/-- The command cache of the chain's root scope. -/
def Env.commandsOf : Env → List (String × String)
  | .root _ cmds => cmds
  | .child _ p => p.commandsOf

/-- Lookup of a command path by exact name. -/
def commandLookup (env : Env) (n : String) : Option String :=
  match env.commandsOf.filter (fun p => p.1 = n) with
  | [] => none
  | (_, path) :: _ => some path

/-- Models Env::create_child: a fresh empty scope chained to the
current one. -/
def create_child (env : Env) : Env := .child [] env

/-- Resolution result of a callee name. -/
inductive FuncOrCommand where
  | func (t : GTree) (off : Nat)
  | command (path : String)
  deriving DecidableEq, Repr

/-- Modelled from the spec and the evaluator tests: resolve a callee
name first as a binding; a binding holding a lambda is a function, a
binding holding any other value falls back to the command cache and,
failing that, is a call-of-non-lambda error carrying the value's type
tag; an unbound name falls back to the command cache and, failing
that, is a does-not-exist error. -/
def get_func_or_command (env : Env) (n : String) :
    Except EvalErrorKind FuncOrCommand :=
  match get_binding env n with
  | some (Val.lam t off) => .ok (.func t off)
  | some v =>
    match commandLookup env n with
    | some p => .ok (.command p)
    | none => .error (.callNonLambda v.ty)
  | none =>
    match commandLookup env n with
    | some p => .ok (.command p)
    | none => .error .funcOrCommandDoesNotExist

/-- Binds parameter names to argument values in order (the zip loop of
Lambda::eval). -/
def bindAll (env : Env) : List String → List Val → Env
  | n :: ns, v :: vs => bindAll (store_binding env n v) ns vs
  | _, _ => env

/-- Continuation after the argument expressions of a function call are
evaluated: either enter the resolved lambda (carrying the call's
argument-list range), or invoke the resolved external command. -/
inductive AfterArgs where
  | func (lamT : GTree) (lamOff : Nat) (lo hi : Nat)
  | command (path : String)
  deriving Repr

/-- First argument without a display representation, with its range. -/
def firstUndisplayable : List (Val × Nat × Nat) → Option (Nat × Nat)
  | [] => none
  | (v, lo, hi) :: rest =>
    match v.displayRepr with
    | some _ => firstUndisplayable rest
    | none => some (lo, hi)

/-- Call labels of the mutually recursive evaluator functions, so the
evaluator is a single function structurally recursive on its fuel:
items is eval_items; item is Item::eval; expr is Expr::eval (an
expression element together with its absolute offset); lamCall is
Lambda::eval (the lambda node, its offset, the call's argument-list
range and the evaluated arguments); argList is the argument-collection
loop of FunctionCall::eval. -/
inductive ECall where
  | items (xs : List (GTree × Nat))
  | item (t : GTree) (off : Nat)
  | expr (t : GTree) (off : Nat)
  | lamCall (lamT : GTree) (lamOff : Nat) (lo hi : Nat) (args : List Val)
  | argList (pending : List (GTree × Nat)) (acc : List (Val × Nat × Nat))
      (k : AfterArgs)

/-- Propagation helper: continue with the value of an ok outcome, and
return any other outcome unchanged with the given environment (the ?
operator of the evaluator). -/
def propOut (o : Outcome) (env : Env) (k : Val → Outcome × Env) : Outcome × Env :=
  match o with
  | .ok v => k v
  | o => (o, env)

/-!
BindingDef.expr selects the right-hand-side expression of a binding
definition.  The binding name is itself an atom (an expression kind),
so the accessor takes the last expression element of the node: the
right-hand side is always the final expression child of a BindingDef
(it is parsed after the equals sign), while the binding name precedes
it.
-/

/-- The evaluator: a direct translation of src/src/eval.rs.  Expression
evaluation takes the environment by shared reference in the source, so
every expr/lamCall/argList branch returns the caller's environment
unchanged; only binding definitions (under items/item) extend the
environment.  Division is the bare integer division of BinOp::eval,
which is an abrupt fault (panic) when the divisor is zero; a fault is
also produced wherever the source unwraps a missing AST child.
External command invocation is modelled from the spec as completing
normally (it yields Nil) after every argument passes the display-
representation check. -/
def evalE : Nat → ECall → Env → Outcome × Env
  | 0, _, env => (.noFuel, env)
  | fuel + 1, c, env =>
    match c with
    | .items [] => (.ok .nil, env)
    | .items (x :: rest) =>
      match evalE fuel (.item x.1 x.2) env with
      | (.ok v, env2) =>
        if rest.isEmpty then (.ok v, env2) else evalE fuel (.items rest) env2
      | bad => bad
    | .item t off =>
      if t.kind = .bindingDef then
        match (exprChildren t off).getLast? with
        | none => (.fault, env)
        | some (e, eo) =>
          propOut (evalE fuel (.expr e eo) env).1 env fun v =>
            match bindingNameOf t with
            | none => (.fault, env)
            | some n => (.ok .nil, store_binding env n v)
      else evalE fuel (.expr t off) env
    | .expr t off =>
      match t.kind with
      | .binOp =>
        match binOpOf t with
        | none => (.fault, env)
        | some op =>
          match exprChildren t off with
          | (l, lo) :: (r, ro) :: _ =>
            propOut (evalE fuel (.expr l lo) env).1 env fun lv =>
              propOut (evalE fuel (.expr r ro) env).1 env fun rv =>
                match lv, rv with
                | .num a, .num b =>
                  match op with
                  | .add => (.ok (.num (a + b)), env)
                  | .sub => (.ok (.num (a - b)), env)
                  | .mul => (.ok (.num (a * b)), env)
                  | .div =>
                    if b = 0 then (.fault, env)
                    else (.ok (.num (Int.tdiv a b)), env)
                | _, _ =>
                  (.err ⟨.binOpOnNonNumbers lv.ty rv.ty, off, off + tlen t⟩, env)
          | _ => (.fault, env)
      | .ifNode =>
        match exprChildren t off with
        | [] => (.fault, env)
        | (cond, co) :: branches =>
          propOut (evalE fuel (.expr cond co) env).1 env fun cv =>
            match cv with
            | .bool true =>
              match branches with
              | (tb, tbo) :: _ => ((evalE fuel (.expr tb tbo) env).1, env)
              | _ => (.fault, env)
            | .bool false =>
              match branches with
              | _ :: (fb, fbo) :: _ => ((evalE fuel (.expr fb fbo) env).1, env)
              | _ => (.fault, env)
            | _ => (.err ⟨.nonBoolCond, co, co + tlen cond⟩, env)
      | .functionCall =>
        match firstTokenOfKinds [.atom] t off with
        | none => (.fault, env)
        | some (nm, nlo, nhi) =>
          match get_func_or_command env nm with
          | .error k => (.err ⟨k, nlo, nhi⟩, env)
          | .ok foc =>
            match paramsNodeOf t off with
            | none => (.fault, env)
            | some (pn, plo) =>
              let cont : AfterArgs :=
                match foc with
                | .func lt lo2 => .func lt lo2 plo (plo + tlen pn)
                | .command p => .command p
              evalE fuel (.argList (exprChildren pn plo) [] cont) env
      | .lambda => (.ok (.lam t off), env)
      | .bindingUsage =>
        match bindingNameOf t with
        | none => (.fault, env)
        | some n =>
          match get_binding env n with
          | some v => (.ok v, env)
          | none => (.err ⟨.bindingDoesNotExist, off, off + tlen t⟩, env)
      | .block =>
        ((evalE fuel (.items (itemChildren t off)) (create_child env)).1, env)
      | .atom => (.ok (.str (tokText t)), env)
      | .digits =>
        match digitsVal (tokText t) with
        | some n => (.ok (.num n), env)
        | none => (.fault, env)
      | .stringLiteral => (.ok (.str (stripQuotes (tokText t))), env)
      | .trueKw => (.ok (.bool true), env)
      | .falseKw => (.ok (.bool false), env)
      | _ => (.fault, env)
    | .lamCall lt lamOff lo hi args =>
      match lamParamNames lt with
      | none => (.fault, env)
      | some names =>
        if args.length < names.length then (.err ⟨.tooFewParams, lo, hi⟩, env)
        else if names.length < args.length then (.err ⟨.tooManyParams, lo, hi⟩, env)
        else
          match lamBody lt lamOff with
          | none => (.fault, env)
          | some (b, bo) =>
            ((evalE fuel (.expr b bo) (bindAll (create_child env) names args)).1,
              env)
    | .argList [] acc k =>
      match k with
      | .func lt lamOff lo hi =>
        evalE fuel (.lamCall lt lamOff lo hi (acc.map Prod.fst)) env
      | .command _ =>
        match firstUndisplayable acc with
        | some (alo, ahi) => (.err ⟨.undisplayableCommandArg, alo, ahi⟩, env)
        | none => (.ok .nil, env)
    | .argList ((e, eo) :: rest) acc k =>
      propOut (evalE fuel (.expr e eo) env).1 env fun v =>
        evalE fuel (.argList rest (acc ++ [(v, eo, eo + tlen e)]) k) env

/-- Models eval_items on an item list (used for Root and Block). -/
def eval_items (fuel : Nat) (xs : List (GTree × Nat)) (env : Env) :
    Outcome × Env :=
  evalE fuel (.items xs) env

/-- Models Lambda::eval. -/
def lambda_eval (fuel : Nat) (lamT : GTree) (lamOff : Nat) (lo hi : Nat)
    (args : List Val) (env : Env) : Outcome × Env :=
  evalE fuel (.lamCall lamT lamOff lo hi args) env

/-- Models ParseOutput::eval precomposed with Parser::parse: parse the
source text and evaluate the root's items against the environment,
also returning the syntax errors of the parse. -/
def run_source (fuel : Nat) (s : String) (env : Env) :
    Option ((Outcome × Env) × List String) :=
  (parseSource fuel s).map fun p => (eval_items fuel (root_items p.1) env, p.2)

/-- Fixture: a binding-definition node let n = d for a digit run d
(the tree shape parse_statement produces for well-formed input). -/
def letD (n d : String) : GTree :=
  .node .bindingDef [.token .letKw "let", .token .whitespace " ",
    .token .atom n, .token .whitespace " ", .token .equals "=",
    .token .whitespace " ", .token .digits d]

/-- Fixture: a binding-usage node for the name n. -/
def useT (n : String) : GTree :=
  .node .bindingUsage [.token .dollar "$", .token .atom n]

/-- Fixture: a lambda literal with a single parameter and the given
body element. -/
def lamOne (x : String) (body : GTree) : GTree :=
  .node .lambda [.node .lambdaParams [.token .pipe "|", .token .atom x,
    .token .pipe "|"], .token .whitespace " ", body]

/-- Fixture: a lambda literal with no parameters whose body is a
binding usage of y (a free variable). -/
def lamFree (y : String) : GTree :=
  .node .lambda [.node .lambdaParams [.token .pipe "|", .token .pipe "|"],
    useT y]

/-- Fixture: a function-call node applying a bare name to argument
expression elements. -/
def callOf (fname : String) (args : List GTree) : GTree :=
  .node .functionCall [.token .atom fname, .token .whitespace " ",
    .node .functionCallParams args]

/-- Updating an association list stores the value under the key. -/
theorem lookupAssoc_update (bs : List (String × Val)) (n : String) (v : Val) :
    lookupAssoc (updateAssoc bs n v) n = some v := by
  induction bs with
  | nil => simp [updateAssoc, lookupAssoc]
  | cons p rest ih =>
    obtain ⟨m, w⟩ := p
    by_cases h : m = n <;> simp [updateAssoc, lookupAssoc, h, ih]

/-- Looking up the name just stored finds the stored value. -/
theorem get_binding_store_same (env : Env) (n : String) (v : Val) :
    get_binding (store_binding env n v) n = some v := by
  cases env <;> simp [store_binding, get_binding, lookupAssoc_update]

/-- C2: expression parsing gives star and slash a tighter binding power
than plus and minus, and the operators are left-associative: the input
"10 - 5 - 3 - 2" parses as the left-nested tree (((10-5)-3)-2) with no
syntax errors and evaluates to 0, and "2 + 3 * 4" evaluates to 14. -/
theorem precedence_and_left_associativity :
    parseSource 32 "10 - 5 - 3 - 2" =
      some (.node .root [.node .binOp [
        .node .binOp [
          .node .binOp [
            .token .digits "10", .token .whitespace " ",
            .token .minus "-", .token .whitespace " ",
            .token .digits "5", .token .whitespace " "],
          .token .minus "-", .token .whitespace " ",
          .token .digits "3", .token .whitespace " "],
        .token .minus "-", .token .whitespace " ",
        .token .digits "2"]], []) ∧
    run_source 32 "10 - 5 - 3 - 2" (.root [] []) =
      some ((.ok (.num 0), .root [] []), []) ∧
    run_source 32 "2 + 3 * 4" (.root [] []) =
      some ((.ok (.num 14), .root [] []), []) :=
  ⟨rfl, rfl, rfl⟩

/-- C4: evaluating the binary operation "10 / 0", whose operands are
both numbers and whose divisor is zero, is an abrupt process fault
(the bare integer division of BinOp::eval panics); it is not a
reportable DivisionByZero evaluation error. -/
theorem division_by_zero_is_abrupt_fault :
    run_source 32 "10 / 0" (.root [] []) =
      some ((.fault, .root [] []), []) :=
  rfl

/-- C7: parse_one_expr accepts only digit runs, string literals,
dollar binding usages, atom-headed function calls and pipe-headed
lambdas; a block form, an if conditional or a boolean keyword literal
in expression position records an expected-expression syntax error
(the recovery then consumes the rest of the line as error tokens,
each recorded as an expected-operator error). -/
theorem one_expr_rejects_block_and_keyword_forms :
    parseErrors 32 "\x7b 1 \x7d" =
      some ["expected expression", "expected operator", "expected operator",
        "expected operator"] ∧
    parseErrors 32 "if true then 1 else 2" =
      some ["expected expression", "expected operator", "expected operator",
        "expected operator", "expected operator", "expected operator",
        "expected operator", "expected operator", "expected operator",
        "expected operator"] ∧
    parseErrors 32 "true" = some ["expected expression"] :=
  ⟨rfl, rfl, rfl⟩

/-- C8: parsing "let 5 = 10" yields a tree whose BindingDef contains an
Error token covering the malformed binding name 5 while the equals
sign and the 10 are still parsed into the binding, the error list
records exactly one syntax error, and the parse returns a tree plus
error list rather than aborting. -/
theorem let_binding_name_recovery :
    parseSource 32 "let 5 = 10" =
      some (.node .root [.node .bindingDef [
        .token .letKw "let", .token .whitespace " ",
        .token .error "5", .token .whitespace " ",
        .token .equals "=", .token .whitespace " ",
        .token .digits "10"]], ["expected binding name"]) :=
  rfl

/-- The lambda-parameter recovery loop never terminates when the next
lexeme is an end-of-line: Parser::error consumes nothing at an Eol, so
the loop re-inspects the same lexeme forever (the recursion budget is
exhausted for every fuel). -/
theorem lpLoop_no_fuel (fuel : Nat) (tx : String) (st : PState)
    (h : st.input = [⟨.eol, tx⟩]) : pgo fuel .lpLoop st = none := by
  induction fuel generalizing st with
  | zero => rfl
  | succ f ih =>
    have hne : st.atEnd = false := by simp [PState.atEnd, h]
    have hpk : st.peek = some .eol := by simp [PState.peek, h]
    simp only [pgo, hne, hpk, Bool.false_eq_true, if_false]
    exact ih _ (by simp only [errorOp, h, skipWs, skipKinds, skipGo]; split <;> rfl)

/-- Entering parse_lambda with a pipe followed by an end-of-line
exhausts any recursion budget. -/
theorem lambdaFn_no_fuel (fuel : Nat) (t1 t2 : String) (st : PState)
    (h : st.input = [⟨.pipe, t1⟩, ⟨.eol, t2⟩]) :
    pgo fuel .lambdaFn st = none := by
  cases fuel with
  | zero => rfl
  | succ f =>
    simp only [pgo]
    rw [lpLoop_no_fuel f t2 _
      (by cases st.stack <;> simp [startNode, bump, h, pushChild, skipWs, skipKinds, skipGo])]

/-- parse_one_expr inherits the divergence for that input. -/
theorem oneExpr_no_fuel (fuel : Nat) (t1 t2 : String) (st : PState)
    (h : st.input = [⟨.pipe, t1⟩, ⟨.eol, t2⟩]) :
    pgo fuel .oneExpr st = none := by
  cases fuel with
  | zero => rfl
  | succ f =>
    have hpk : st.peek = some .pipe := by simp [PState.peek, h]
    simp only [pgo, hpk]
    exact lambdaFn_no_fuel f t1 t2 st h

/-- parse_expr inherits the divergence for that input. -/
theorem exprBp_no_fuel (fuel : Nat) (minBp : Nat) (t1 t2 : String) (st : PState)
    (h : st.input = [⟨.pipe, t1⟩, ⟨.eol, t2⟩]) :
    pgo fuel (.exprBp minBp) st = none := by
  cases fuel with
  | zero => rfl
  | succ f =>
    simp only [pgo]
    rw [oneExpr_no_fuel f t1 t2 st h]

/-- parse_item inherits the divergence for that input. -/
theorem item_no_fuel (fuel : Nat) (t1 t2 : String) (st : PState)
    (h : st.input = [⟨.pipe, t1⟩, ⟨.eol, t2⟩]) :
    pgo fuel .item st = none := by
  cases fuel with
  | zero => rfl
  | succ f =>
    have hpk : st.peek = some .pipe := by simp [PState.peek, h]
    simp only [pgo, hpk]
    exact exprBp_no_fuel f 0 t1 t2 st h

/-- The item loop of Parser::parse inherits the divergence. -/
theorem rootLoop_no_fuel (fuel : Nat) (t1 t2 : String) (st : PState)
    (h : st.input = [⟨.pipe, t1⟩, ⟨.eol, t2⟩]) :
    pgo fuel .rootLoop st = none := by
  cases fuel with
  | zero => rfl
  | succ f =>
    have hne : st.atEnd = false := by simp [PState.atEnd, h]
    simp only [pgo, hne, Bool.false_eq_true, if_false]
    rw [item_no_fuel f t1 t2 st h]

/-- C1: the parse-then-print round trip fails to hold for every input:
on the source consisting of a lambda opening pipe followed by an
end-of-line, Parser::parse never yields a tree at all — the recovery
loop of parse_lambda calls Parser::error at an Eol lexeme, which
records an error but consumes nothing, so the parser loops forever
(every recursion budget is exhausted) instead of producing a tree
whose leaves concatenate to the input. -/
theorem parser_loops_forever_on_lambda_before_eol (fuel : Nat) :
    parseSource fuel "|\n" = none := by
  have hlex : lex "|\n" = [⟨.pipe, "|"⟩, ⟨.eol, "\n"⟩] := rfl
  unfold parseSource parseLexemes
  rw [hlex, rootLoop_no_fuel fuel "|" "\n" _ rfl]

/-- Evaluation of a prefix of an item sequence purely for its effect on
the environment, mirroring the fuel bookkeeping of the evaluator: it
returns the extended environment and the remaining fuel when every
prefix item evaluates to a value, and the first non-ok outcome (with
the environment at that point) otherwise.  This is the sequencing of
the spec's sequence-of-items evaluation, used to state that the value
of the last item is the value of the whole sequence. -/
def evalAllDiscard : Nat → List (GTree × Nat) → Env → (Env × Nat) ⊕ (Outcome × Env)
  | f, [], env => .inl (env, f)
  | 0, _ :: _, env => .inr (.noFuel, env)
  | f + 1, x :: xs, env =>
    match evalE f (.item x.1 x.2) env with
    | (.ok _, env2) => evalAllDiscard f xs env2
    | bad => .inr bad

/-- C3: evaluating an item sequence (a Root or a Block) returns Nil
when the sequence is empty; otherwise every item is evaluated in
source order (items before the last for their effect only, with the
first failure short-circuiting) and the outcome of the last item is
the sequence's outcome. -/
theorem item_sequence_evaluation :
    (∀ fuel env, eval_items (fuel + 1) [] env = (.ok .nil, env)) ∧
    (∀ fuel x env, eval_items (fuel + 1) [x] env = evalE fuel (.item x.1 x.2) env) ∧
    (∀ fuel xs x env,
      eval_items fuel (xs ++ [x]) env =
        match evalAllDiscard fuel xs env with
        | .inl (env2, fuel2) => eval_items fuel2 [x] env2
        | .inr bad => bad) := by
  have hsingle : ∀ fuel x env,
      eval_items (fuel + 1) [x] env = evalE fuel (.item x.1 x.2) env := by
    intro fuel x env
    show evalE (fuel + 1) (.items [x]) env = _
    simp only [evalE]
    rcases h : evalE fuel (.item x.1 x.2) env with ⟨o, env2⟩
    cases o <;> simp
  refine ⟨fun fuel env => rfl, hsingle, fun fuel xs x env => ?_⟩
  induction xs generalizing fuel env with
  | nil =>
    cases fuel with
    | zero => rfl
    | succ f => rfl
  | cons y ys ih =>
    cases fuel with
    | zero => rfl
    | succ f =>
      show evalE (f + 1) (.items (y :: ys ++ [x])) env = _
      simp only [List.cons_append, evalE, evalAllDiscard]
      rcases h : evalE f (.item y.1 y.2) env with ⟨o, env2⟩
      cases o with
      | ok v =>
        have hemp : (ys ++ [x]).isEmpty = false := by
          cases ys <;> simp [List.isEmpty]
        simp only [hemp, Bool.false_eq_true, if_false]
        exact ih f env2
      | err e => rfl
      | fault => rfl
      | noFuel => rfl

/-- C5: Lambda::eval checks the number of supplied arguments against
the number of declared parameters exactly: more arguments fail with
TooManyParams at the range passed for the call's argument list, fewer
fail with the distinct error TooFewParams at that same range, and only
on an exact match is the body evaluated (in a fresh child scope with
the parameters bound).  Through the full pipeline, calling the lambda
let id = |a| $a with two arguments fails with TooManyParams located at
the call's argument-list range (19,22), with zero arguments fails with
TooFewParams at the (empty) argument-list range, and with exactly one
argument evaluates the body. -/
theorem lambda_arity_exact_check (fuel : Nat) (lamT : GTree)
    (lamOff lo hi : Nat) (args : List Val) (env : Env)
    (names : List String) (h : lamParamNames lamT = some names) :
    (names.length < args.length →
      lambda_eval (fuel + 1) lamT lamOff lo hi args env =
        (.err ⟨.tooManyParams, lo, hi⟩, env)) ∧
    (args.length < names.length →
      lambda_eval (fuel + 1) lamT lamOff lo hi args env =
        (.err ⟨.tooFewParams, lo, hi⟩, env)) ∧
    (args.length = names.length →
      lambda_eval (fuel + 1) lamT lamOff lo hi args env =
        match lamBody lamT lamOff with
        | none => (.fault, env)
        | some b =>
          ((evalE fuel (.expr b.1 b.2)
            (bindAll (create_child env) names args)).1, env)) ∧
    run_source 32 "let id = |a| $a\nid 1 2" (.root [] []) =
      some ((.err ⟨.tooManyParams, 19, 22⟩,
        .root [("id", .lam (lamOne "a" (useT "a")) 9)] []), []) ∧
    run_source 32 "let id = |a| $a\nid" (.root [] []) =
      some ((.err ⟨.tooFewParams, 18, 18⟩,
        .root [("id", .lam (lamOne "a" (useT "a")) 9)] []), []) ∧
    run_source 32 "let id = |a| $a\nid 7" (.root [] []) =
      some ((.ok (.num 7),
        .root [("id", .lam (lamOne "a" (useT "a")) 9)] []), []) := by
  refine ⟨?_, ?_, ?_, rfl, rfl, rfl⟩
  · intro hlt
    have h1 : ¬ args.length < names.length := by omega
    simp only [lambda_eval, evalE, h, if_neg h1, if_pos hlt]
  · intro hlt
    simp only [lambda_eval, evalE, h, if_pos hlt]
  · intro heq
    have h1 : ¬ args.length < names.length := by omega
    have h2 : ¬ names.length < args.length := by omega
    simp only [lambda_eval, evalE, h, if_neg h1, if_neg h2]
    cases hb : lamBody lamT lamOff with
    | none => rfl
    | some b => obtain ⟨b1, b2⟩ := b; rfl

/-- Witness for the arity-check theorem: the one-parameter lambda
|a| $a applied to two concrete arguments fails with TooManyParams at
the given argument-list range. -/
theorem lambda_arity_exact_check_witness :
    lambda_eval 5 (lamOne "a" (useT "a")) 0 3 7 [.num 1, .num 2]
      (.root [] []) = (.err ⟨.tooManyParams, 3, 7⟩, .root [] []) :=
  (lambda_arity_exact_check 4 (lamOne "a" (useT "a")) 0 3 7
    [.num 1, .num 2] (.root [] []) ["a"] rfl).1 (by decide)

/-- C6: a lambda value is just the lambda syntax node (parameter names
and body) — evaluating a lambda literal in any environment yields that
node with no captured environment; a call evaluates the argument
expressions in the caller's environment and the body in a fresh child
of the caller's environment, so a free variable in the body resolves
dynamically against whatever environment the call is made in: calling
the zero-parameter lambda || $y yields exactly what looking y up in
the caller's environment yields (the binding y is found if and only
if the caller's scope chain has it), and a call whose argument is $z
fails with BindingDoesNotExist at the argument's range whenever z is
unbound in the caller's environment. -/
theorem lambda_captures_no_environment (fuel : Nat) :
    (∀ (t : GTree) (off : Nat) (env : Env), t.kind = .lambda →
      evalE (fuel + 1) (.expr t off) env = (.ok (.lam t off), env)) ∧
    (∀ (y : String) (lamOff lo hi : Nat) (env : Env),
      lambda_eval (fuel + 2) (lamFree y) lamOff lo hi [] env =
        (match get_binding env y with
         | some v => Outcome.ok v
         | none => .err ⟨.bindingDoesNotExist, lamOff + 2,
             lamOff + 2 + tlen (useT y)⟩,
         env)) ∧
    (∀ (fname z : String) (lt : GTree) (lo2 : Nat) (env : Env),
      get_binding env fname = some (.lam lt lo2) →
      get_binding env z = none →
      evalE (fuel + 3) (.expr (callOf fname [useT z]) 0) env =
        (.err ⟨.bindingDoesNotExist, fname.length + 1,
          fname.length + 1 + tlen (useT z)⟩, env)) := by
  refine ⟨?_, ?_, ?_⟩
  · intro t off env h
    simp only [evalE, h]
  · intro y lamOff lo hi env
    cases hy : get_binding env y <;>
      simp [lambda_eval, evalE, lamFree, useT, lamParamNames, lamBody,
        exprChildren, nodeChildPos, childPos, bindingNameOf, firstTokenOfKinds,
        tokText, tlen, tlenList, GTree.kind, isExprKind, bindAll, create_child,
        get_binding, lookupAssoc, hy, propOut]
    decide
  · intro fname z lt lo2 env h1 h2
    simp [evalE, callOf, useT, GTree.kind, firstTokenOfKinds,
      nodeChildPos, childPos, tokText, tlen, tlenList, get_func_or_command,
      h1, paramsNodeOf, exprChildren, isExprKind, bindingNameOf, h2, propOut]
    decide

/-- Witness for the no-capture theorem: a lambda literal evaluates to
its own node in the empty environment; calling || $y where the caller
binds y to 9 yields 9; calling a stored lambda with argument $z in an
environment without z fails with BindingDoesNotExist at the argument's
range. -/
theorem lambda_captures_no_environment_witness :
    evalE 1 (.expr (lamFree "y") 0) (.root [] []) =
      (.ok (.lam (lamFree "y") 0), .root [] []) ∧
    lambda_eval 2 (lamFree "y") 0 0 0 [] (.root [("y", .num 9)] []) =
      (.ok (.num 9), .root [("y", .num 9)] []) ∧
    evalE 3 (.expr (callOf "f" [useT "z"]) 0)
      (.root [("f", .lam (lamFree "y") 5)] []) =
      (.err ⟨.bindingDoesNotExist, 2, 4⟩,
        .root [("f", .lam (lamFree "y") 5)] []) :=
  ⟨(lambda_captures_no_environment 0).1 _ _ _ rfl,
   (lambda_captures_no_environment 0).2.1 "y" 0 0 0 _,
   (lambda_captures_no_environment 0).2.2 "f" "z" (lamFree "y") 5
     (.root [("f", .lam (lamFree "y") 5)] []) rfl rfl⟩

/-- Stepping lemma: a singleton item sequence evaluates as its item. -/
theorem items_single_step (fuel : Nat) (x : GTree × Nat) (env : Env) :
    evalE (fuel + 1) (.items [x]) env = evalE fuel (.item x.1 x.2) env := by
  simp only [evalE]
  rcases h : evalE fuel (.item x.1 x.2) env with ⟨o, env2⟩
  cases o <;> simp

/-- Stepping lemma: a two-item sequence evaluates its first item and,
if it produced a value, continues with the second in the resulting
environment; any other outcome short-circuits. -/
theorem items_pair_step (fuel : Nat) (x y : GTree × Nat) (env : Env) :
    evalE (fuel + 1) (.items [x, y]) env =
      match evalE fuel (.item x.1 x.2) env with
      | (.ok _, env2) => evalE fuel (.items [y]) env2
      | bad => bad := by
  simp only [evalE]
  rcases h : evalE fuel (.item x.1 x.2) env with ⟨o, env2⟩
  cases o <;> simp

/-- Calling the one-parameter lambda |x| 5 bound to id with one
argument evaluates the body and yields 5, leaving the environment of
the call unchanged. -/
theorem call_id_item_ok (fuel : Nat) (env : Env)
    (h : get_binding env "id" =
      some (.lam (lamOne "x" (.token .digits "5")) 0)) :
    evalE (fuel + 6) (.item (callOf "id" [.token .digits "3"]) 0) env =
      (.ok (.num 5), env) := by
  simp [evalE, lamOne, callOf, GTree.kind, firstTokenOfKinds, nodeChildPos,
    childPos, tokText, tlen, tlenList, get_func_or_command, h, paramsNodeOf,
    exprChildren, isExprKind, lamParamNames, lamBody, bindAll, create_child,
    store_binding, updateAssoc, propOut,
    show digitsVal "3" = some 3 from rfl,
    show digitsVal "5" = some 5 from rfl]

/-- Evaluating a binding usage $n as an item fails with
BindingDoesNotExist at its own range when n is unbound, leaving the
environment untouched. -/
theorem use_item_err (fuel : Nat) (n : String) (env : Env)
    (h : get_binding env n = none) :
    evalE (fuel + 2) (.item (useT n) 0) env =
      (.err ⟨.bindingDoesNotExist, 0, tlen (useT n)⟩, env) := by
  simp [evalE, useT, GTree.kind, bindingNameOf, firstTokenOfKinds,
    nodeChildPos, childPos, tokText, tlen, tlenList, isExprKind, h]

/-- C9: Block::eval allocates one fresh child scope, evaluates the
block's items under it, and discards it afterwards (only the value
crosses the block boundary and the enclosing environment is returned
unchanged); consequently a binding defined inside a block — let x = 5
— or bound as a lambda parameter is gone afterwards: a subsequent
lookup of x fails with BindingDoesNotExist whenever x is not bound
outside, and the environment accompanying the error is exactly the
enclosing environment. -/
theorem scope_discard_after_block_and_lambda (fuel : Nat) :
    (∀ (t : GTree) (off : Nat) (env : Env), t.kind = .block →
      evalE (fuel + 1) (.expr t off) env =
        ((evalE fuel (.items (itemChildren t off)) (create_child env)).1,
          env)) ∧
    (∀ env : Env, get_binding env "x" = none →
      eval_items (fuel + 9)
        [(.node .block [letD "x" "5"], 0), (useT "x", 0)] env =
        (.err ⟨.bindingDoesNotExist, 0, 2⟩, env)) ∧
    (∀ env : Env,
      get_binding (store_binding env "id"
        (.lam (lamOne "x" (.token .digits "5")) 0)) "x" = none →
      eval_items (fuel + 9)
        [(callOf "id" [.token .digits "3"], 0), (useT "x", 0)]
        (store_binding env "id" (.lam (lamOne "x" (.token .digits "5")) 0)) =
        (.err ⟨.bindingDoesNotExist, 0, 2⟩,
          store_binding env "id"
            (.lam (lamOne "x" (.token .digits "5")) 0))) := by
  refine ⟨?_, ?_, ?_⟩
  · intro t off env h
    simp only [evalE, h]
  · intro env h
    simp [eval_items, evalE, letD, useT, itemChildren, exprChildren,
      nodeChildPos, childPos, isItemKind, isExprKind, GTree.kind,
      bindingNameOf, firstTokenOfKinds, tokText, tlen, tlenList,
      show digitsVal "5" = some 5 from rfl, store_binding, create_child,
      updateAssoc, h, propOut]
    decide
  · intro env h
    show evalE (fuel + 9)
      (.items [(callOf "id" [.token .digits "3"], 0), (useT "x", 0)]) _ = _
    rw [items_pair_step (fuel + 8), call_id_item_ok (fuel + 2) _
      (get_binding_store_same _ _ _)]
    simp only []
    rw [items_single_step (fuel + 7), use_item_err (fuel + 5) "x" _ h]
    rfl

/-- Witness for the scope-discard theorem: starting from the empty
root environment, both the block-local binding and the lambda
parameter are invisible afterwards, failing with BindingDoesNotExist
and leaving the enclosing environment as it was. -/
theorem scope_discard_after_block_and_lambda_witness :
    eval_items 9 [(.node .block [letD "x" "5"], 0), (useT "x", 0)]
      (.root [] []) = (.err ⟨.bindingDoesNotExist, 0, 2⟩, .root [] []) ∧
    eval_items 9 [(callOf "id" [.token .digits "3"], 0), (useT "x", 0)]
      (.root [("id", .lam (lamOne "x" (.token .digits "5")) 0)] []) =
      (.err ⟨.bindingDoesNotExist, 0, 2⟩,
        .root [("id", .lam (lamOne "x" (.token .digits "5")) 0)] []) :=
  ⟨(scope_discard_after_block_and_lambda 0).2.1 (.root [] []) rfl,
   (scope_discard_after_block_and_lambda 0).2.2 (.root [] []) rfl⟩

/-- C10: a successfully evaluated binding definition stores its value
in the environment before the remaining items run, and evaluation
errors do not roll the environment back: evaluating let a = 5, then
let b = 6, then the unbound usage $zz fails at the third item with
BindingDoesNotExist, and the environment accompanying the propagating
error still holds both a and b. -/
theorem binding_defs_persist_through_errors (fuel : Nat) :
    (∀ (n d : String) (dv : Int) (off : Nat) (r : GTree × Nat)
      (rs : List (GTree × Nat)) (env : Env), digitsVal d = some dv →
      eval_items (fuel + 3) ((letD n d, off) :: r :: rs) env =
        eval_items (fuel + 2) (r :: rs) (store_binding env n (.num dv))) ∧
    (∀ env : Env,
      get_binding (store_binding (store_binding env "a" (.num 5)) "b"
        (.num 6)) "zz" = none →
      eval_items (fuel + 8)
        [(letD "a" "5", 0), (letD "b" "6", 0), (useT "zz", 0)] env =
        (.err ⟨.bindingDoesNotExist, 0, 3⟩,
          store_binding (store_binding env "a" (.num 5)) "b" (.num 6))) := by
  have hstep : ∀ (f : Nat) (n d : String) (dv : Int) (off : Nat)
      (r : GTree × Nat) (rs : List (GTree × Nat)) (env : Env),
      digitsVal d = some dv →
      eval_items (f + 3) ((letD n d, off) :: r :: rs) env =
        eval_items (f + 2) (r :: rs) (store_binding env n (.num dv)) := by
    intro f n d dv off r rs env hd
    simp [eval_items, evalE, letD, exprChildren, nodeChildPos, childPos,
      isExprKind, GTree.kind, bindingNameOf, firstTokenOfKinds, tokText,
      tlen, tlenList, hd, propOut]
  refine ⟨hstep fuel, ?_⟩
  intro env h
  rw [hstep (fuel + 5) "a" "5" 5 0 _ _ env rfl,
    hstep (fuel + 4) "b" "6" 6 0 _ _ _ rfl]
  show evalE (fuel + 6) (.items [(useT "zz", 0)]) _ = _
  rw [items_single_step (fuel + 5), use_item_err (fuel + 3) "zz" _ h]
  rfl

/-- Witness for the persistence theorem: from the empty root
environment, the failing three-item program leaves both stored
bindings in the environment carried by the error. -/
theorem binding_defs_persist_through_errors_witness :
    eval_items 8 [(letD "a" "5", 0), (letD "b" "6", 0), (useT "zz", 0)]
      (.root [] []) =
      (.err ⟨.bindingDoesNotExist, 0, 3⟩,
        .root [("a", .num 5), ("b", .num 6)] []) :=
  (binding_defs_persist_through_errors 0).2 (.root [] []) rfl

/-- Concatenated leaf text of a builder stack, bottom frame first (the
text emitted so far, in source order). -/
def stackTextOf : List Frame → String
  | [] => ""
  | f :: rest => stackTextOf rest ++ leafTextList f.2

/-- The text content of a parser state: everything already emitted into
the builder followed by the text of the remaining input.  Every parser
operation preserves this quantity, which is the heart of the lossless
round trip. -/
def ptext (st : PState) : String := stackTextOf st.stack ++ lexText st.input

/-- Concatenation of leaf text distributes over list append. -/
theorem leafTextList_append (a b : List GTree) :
    leafTextList (a ++ b) = leafTextList a ++ leafTextList b := by
  induction a with
  | nil => simp [leafTextList]
  | cons t ts ih => simp [leafTextList, ih, String.append_assoc]

/-- One parser step preserves the text measure and keeps the builder
stack nonempty (every run starts inside the Root frame and frames are
only ever split or merged, never emptied). -/
def PresTo (st st2 : PState) : Prop :=
  st.stack ≠ [] → ptext st2 = ptext st ∧ st2.stack ≠ []

/-- Preservation is reflexive. -/
theorem pres_refl (st : PState) : PresTo st st := fun h => ⟨rfl, h⟩

/-- Preservation composes. -/
theorem pres_trans {a b c : PState} (h1 : PresTo a b) (h2 : PresTo b c) :
    PresTo a c := by
  intro hne
  obtain ⟨e1, n1⟩ := h1 hne
  obtain ⟨e2, n2⟩ := h2 n1
  exact ⟨e2.trans e1, n2⟩

/-- Appending a finished child to the top frame adds exactly its leaf
text to the measure of the stack. -/
theorem pushChild_ptext (t : GTree) (st : PState) (h : st.stack ≠ []) :
    ptext (pushChild t st) =
      stackTextOf st.stack ++ leafText t ++ lexText st.input ∧
    (pushChild t st).stack ≠ [] := by
  match hs : st.stack with
  | [] => exact absurd hs h
  | (k, cs) :: rest =>
    refine ⟨?_, by simp [pushChild, hs]⟩
    simp [pushChild, hs, ptext, stackTextOf, leafTextList_append,
      leafTextList, String.append_assoc]

/-- Parser::bump preserves the measure. -/
theorem pres_bump (st : PState) : PresTo st (bump st) := by
  intro h
  match hi : st.input with
  | [] => exact ⟨by simp only [bump, hi], by simp only [bump, hi]; exact h⟩
  | l :: rest =>
    have hp := pushChild_ptext (.token l.kind l.text)
      { st with input := rest } h
    constructor
    · simp only [bump, hi]
      rw [hp.1]
      simp [ptext, lexText, leafText, String.append_assoc, hi]
    · simp only [bump, hi]
      exact hp.2

/-- Parser::error preserves the measure: it either consumes nothing or
emits the consumed lexeme's exact text as an Error token. -/
theorem pres_errorOp (msg : String) (st : PState) :
    PresTo st (errorOp msg st) := by
  intro h
  match hi : st.input with
  | [] =>
    refine ⟨?_, ?_⟩ <;> simp only [errorOp, hi]
    · simp [ptext, hi]
    · exact h
  | l :: rest =>
    by_cases hk : l.kind = .eol
    · refine ⟨?_, ?_⟩ <;> simp only [errorOp, hi, hk, if_pos]
      · simp [ptext, hi]
      · exact h
    · have hp := pushChild_ptext (.token .error l.text)
        { st with input := rest, errors := st.errors ++ [msg] } h
      constructor
      · simp only [errorOp, hi, hk, if_neg, ite_false]
        rw [hp.1]
        simp [ptext, lexText, leafText, String.append_assoc, hi]
      · simp only [errorOp, hi, hk, if_neg, ite_false]
        exact hp.2

/-- The skip worker moves lexeme text into the child list verbatim. -/
theorem skipGo_text (ks : List NodeKind) :
    ∀ (inp : List Lexeme) (acc : List GTree),
      leafTextList (skipGo ks inp acc).2 ++ lexText (skipGo ks inp acc).1 =
        leafTextList acc ++ lexText inp := by
  intro inp
  induction inp with
  | nil => intro acc; simp [skipGo, lexText]
  | cons l rest ih =>
    intro acc
    by_cases hk : l.kind ∈ ks
    · simp only [skipGo, hk, if_pos]
      rw [ih]
      simp [leafTextList_append, leafTextList, leafText, lexText,
        String.append_assoc]
    · simp [skipGo, hk]

/-- Parser::skip preserves the measure. -/
theorem pres_skipKinds (ks : List NodeKind) (st : PState) :
    PresTo st (skipKinds ks st) := by
  intro h
  match hs : st.stack with
  | [] => exact absurd hs h
  | (k, cs) :: rest =>
    constructor
    · simp only [skipKinds, hs, ptext, stackTextOf]
      rw [String.append_assoc, String.append_assoc, skipGo_text]
    · simp [skipKinds, hs]

/-- skip_ws preserves the measure. -/
theorem pres_skipWs (st : PState) : PresTo st (skipWs st) :=
  pres_skipKinds _ st

/-- Opening a node preserves the measure (an empty frame has no text). -/
theorem pres_startNode (k : NodeKind) (st : PState) :
    PresTo st (startNode k st) := by
  intro h
  refine ⟨?_, by simp [startNode]⟩
  simp [startNode, ptext, stackTextOf, leafTextList]

/-- Closing a node preserves the measure (the finished node's leaf text
is exactly its children's). -/
theorem pres_finishNode (st : PState) : PresTo st (finishNode st) := by
  intro h
  match hs : st.stack with
  | [] => exact absurd hs h
  | [(k, cs)] =>
    exact ⟨by simp only [finishNode, hs], by simp [finishNode, hs]⟩
  | (k, cs) :: (k2, cs2) :: rest =>
    constructor
    · simp [finishNode, hs, ptext, stackTextOf, leafTextList_append,
        leafTextList, leafText, String.append_assoc]
    · simp [finishNode, hs]

/-- Retroactive wrapping preserves the measure (the wrapped suffix and
the kept prefix together carry the same text as the original frame). -/
theorem pres_startNodeAt (cp : Nat) (k : NodeKind) (st : PState) :
    PresTo st (startNodeAt cp k st) := by
  intro h
  match hs : st.stack with
  | [] => exact absurd hs h
  | (k0, cs) :: rest =>
    constructor
    · simp only [startNodeAt, hs, ptext, stackTextOf]
      rw [String.append_assoc (stackTextOf rest), ← leafTextList_append,
        List.take_append_drop]
    · simp [startNodeAt, hs]

/-- The expectation step preserves the measure. -/
theorem pres_expectKind (k : NodeKind) (msg : String) (st : PState) :
    PresTo st (expectKind k msg st) := by
  unfold expectKind
  split
  · exact pres_bump st
  · exact pres_errorOp msg st

/-- parse_contained_expr preserves the measure. -/
theorem pres_containedExpr (st : PState) : PresTo st (parseContainedExpr st) := by
  unfold parseContainedExpr
  split
  any_goals exact pres_bump st
  any_goals exact pres_errorOp _ _
  refine pres_trans (pres_startNode .bindingUsage st) ?_
  refine pres_trans (pres_bump _) ?_
  refine pres_trans (pres_expectKind .atom "expected atom" _) ?_
  exact pres_finishNode _

/-- Every parser function preserves the text measure: whenever a call
returns (for the given recursion budget), the emitted tree text plus
the remaining input text is unchanged, and the builder stack stays
nonempty. -/
theorem pgo_pres (fuel : Nat) :
    ∀ (c : PCall) (st st' : PState), pgo fuel c st = some st' →
      PresTo st st' := by
  induction fuel with
  | zero => intro c st st' hp; exact absurd hp (by simp [pgo])
  | succ f ih =>
    intro c st st' hp
    cases c with
    | rootLoop =>
      simp only [pgo] at hp
      split at hp
      · obtain rfl := Option.some.inj hp
        exact pres_refl _
      · rcases hitem : pgo f .item st with _ | st1 <;> rw [hitem] at hp
        · exact absurd hp (by simp)
        · simp only [] at hp
          refine pres_trans (ih .item st st1 hitem)
            (pres_trans (pres_skipWs st1) ?_)
          split at hp
          · exact pres_trans (pres_bump _) (ih _ _ _ hp)
          · obtain rfl := Option.some.inj hp
            exact pres_refl _
          · exact pres_trans (pres_errorOp _ _) (ih _ _ _ hp)
    | item =>
      simp only [pgo] at hp
      split at hp
      · exact ih _ _ _ hp
      · exact ih _ _ _ hp
    | statement =>
      simp only [pgo] at hp
      split at hp
      · exact absurd hp (by simp)
      · obtain rfl := Option.some.inj hp
        rename_i st8 heq
        refine pres_trans (pres_startNode .bindingDef st) ?_
        refine pres_trans (pres_bump _) ?_
        refine pres_trans (pres_skipWs _) ?_
        refine pres_trans (pres_expectKind .atom "expected binding name" _) ?_
        refine pres_trans (pres_skipWs _) ?_
        refine pres_trans (pres_expectKind .equals "expected equals sign" _) ?_
        refine pres_trans (pres_skipWs _) ?_
        exact pres_trans (ih _ _ _ heq) (pres_finishNode st8)
    | exprBp minBp =>
      simp only [pgo] at hp
      split at hp
      · exact absurd hp (by simp)
      · rename_i st1 heq
        exact pres_trans (ih _ _ _ heq)
          (pres_trans (pres_skipWs st1) (ih _ _ _ hp))
    | opLoop cp minBp =>
      simp only [pgo] at hp
      split at hp
      · obtain rfl := Option.some.inj hp; exact pres_refl _
      · obtain rfl := Option.some.inj hp; exact pres_refl _
      · rename_i k hk
        split at hp
        · exact pres_trans (pres_errorOp _ _) (ih _ _ _ hp)
        · rename_i op hop
          rcases hbp : opBp op with ⟨lb, rb⟩
          rw [hbp] at hp
          simp only [] at hp
          split at hp
          · obtain rfl := Option.some.inj hp; exact pres_refl _
          · split at hp
            · exact absurd hp (by simp)
            · rename_i st2 heq
              refine pres_trans (pres_startNodeAt cp .binOp st) ?_
              refine pres_trans (pres_bump _) ?_
              refine pres_trans (pres_skipWs _) ?_
              exact pres_trans (ih _ _ _ heq)
                (pres_trans (pres_finishNode st2) (ih _ _ _ hp))
    | oneExpr =>
      simp only [pgo] at hp
      split at hp
      any_goals
        obtain rfl := Option.some.inj hp
        exact pres_containedExpr st
      · exact ih _ _ _ hp
      · exact ih _ _ _ hp
      · obtain rfl := Option.some.inj hp
        exact pres_errorOp _ _
    | funCall =>
      simp only [pgo] at hp
      split at hp
      · exact absurd hp (by simp)
      · obtain rfl := Option.some.inj hp
        rename_i st1 heq
        refine pres_trans (pres_startNode .functionCall st) ?_
        refine pres_trans (pres_bump _) ?_
        refine pres_trans (pres_skipWs _) ?_
        refine pres_trans (pres_startNode .functionCallParams _) ?_
        exact pres_trans (ih _ _ _ heq)
          (pres_trans (pres_finishNode st1) (pres_finishNode _))
    | fcLoop =>
      simp only [pgo] at hp
      split at hp
      · obtain rfl := Option.some.inj hp; exact pres_refl _
      · exact pres_trans (pres_containedExpr st)
          (pres_trans (pres_skipWs _) (ih _ _ _ hp))
    | lambdaFn =>
      simp only [pgo] at hp
      split at hp
      · exact absurd hp (by simp)
      · rename_i st1 heq1
        split at hp
        · exact absurd hp (by simp)
        · obtain rfl := Option.some.inj hp
          rename_i st2 heq2
          refine pres_trans (pres_startNode .lambda st) ?_
          refine pres_trans (pres_startNode .lambdaParams _) ?_
          refine pres_trans (pres_bump _) ?_
          refine pres_trans (pres_skipWs _) ?_
          refine pres_trans (ih _ _ _ heq1) ?_
          refine pres_trans (pres_finishNode st1) ?_
          refine pres_trans (pres_skipWs _) ?_
          exact pres_trans (ih _ _ _ heq2) (pres_finishNode st2)
    | lpLoop =>
      simp only [pgo] at hp
      split at hp
      · obtain rfl := Option.some.inj hp; exact pres_refl _
      · split at hp
        · exact pres_trans (pres_bump _)
            (pres_trans (pres_skipWs _) (ih _ _ _ hp))
        · obtain rfl := Option.some.inj hp
          exact pres_bump st
        · exact pres_trans (pres_errorOp _ _)
            (pres_trans (pres_skipWs _) (ih _ _ _ hp))

/-- When the item loop of Parser::parse returns, the whole input has
been consumed (its only exits are at end of input). -/
theorem rootLoop_ends (fuel : Nat) :
    ∀ st st', pgo fuel .rootLoop st = some st' → st'.input = [] := by
  induction fuel with
  | zero => intro st st' hp; exact absurd hp (by simp [pgo])
  | succ f ih =>
    intro st st' hp
    simp only [pgo] at hp
    split at hp
    · obtain rfl := Option.some.inj hp
      rename_i hend
      simpa [PState.atEnd, List.isEmpty_iff] using hend
    · rcases hitem : pgo f .item st with _ | st1 <;> rw [hitem] at hp
      · exact absurd hp (by simp)
      · simp only [] at hp
        split at hp
        · exact ih _ _ hp
        · obtain rfl := Option.some.inj hp
          rename_i hpk
          simpa [PState.peek, List.head?_eq_none_iff] using hpk
        · exact ih _ _ hp

/-- Folding up a builder stack yields a tree whose leaf text is the
stack's text. -/
theorem collapse_node : ∀ stk : List Frame,
    ∃ k cs, collapseStack stk = .node k cs ∧
      leafTextList cs = stackTextOf stk := by
  intro stk
  induction stk with
  | nil => exact ⟨.root, [], rfl, rfl⟩
  | cons fr rest ih =>
    obtain ⟨k, cs⟩ := fr
    match rest, ih with
    | [], _ => exact ⟨k, cs, rfl, by simp [stackTextOf, leafTextList]⟩
    | r :: rs, ⟨k2, cs2, hcol, htext⟩ =>
      refine ⟨k2, cs2 ++ [.node k cs], ?_, ?_⟩
      · simp only [collapseStack, hcol]
      · simp [leafTextList_append, leafTextList, leafText, htext,
          stackTextOf, String.append_assoc]

/-- Concatenating the data of two strings concatenates the strings. -/
theorem strMk_append (a b : List Char) :
    String.mk a ++ String.mk b = String.mk (a ++ b) := rfl

/-- The span worker splits its input without loss. -/
theorem spanChars_spec (p : Char → Bool) :
    ∀ (cs tk rest : List Char), spanChars p cs = (tk, rest) →
      tk ++ rest = cs ∧ rest.length ≤ cs.length := by
  intro cs
  induction cs with
  | nil =>
    intro tk rest h
    obtain ⟨rfl, rfl⟩ := Prod.mk.injEq .. ▸ h
    simp [spanChars] at h
    simp [h]
  | cons c rest0 ih =>
    intro tk rest h
    by_cases hc : p c
    · rcases hs : spanChars p rest0 with ⟨tk2, rem2⟩
      have hih := ih tk2 rem2 hs
      rw [spanChars, if_pos hc, hs] at h
      obtain ⟨rfl, rfl⟩ := Prod.mk.injEq .. ▸ h
      constructor
      · simp [hih.1]
      · exact Nat.le_succ_of_le hih.2
    · rw [spanChars, if_neg hc] at h
      obtain ⟨rfl, rfl⟩ := Prod.mk.injEq .. ▸ h
      simp

/-- One lexing step covers the consumed characters exactly. -/
theorem nextTok_text (c : Char) (cs : List Char) :
    (nextTok c cs).1.text ++ String.mk (nextTok c cs).2 =
      String.mk (c :: cs) := by
  unfold nextTok
  by_cases h1 : isAtomStart c
  · rcases hs : spanChars isAtomChar cs with ⟨tk, rest⟩
    have hspec := spanChars_spec isAtomChar cs tk rest hs
    simp only [h1, if_pos, hs]
    rw [strMk_append,
      show ((c :: tk) ++ rest) = c :: (tk ++ rest) from rfl, hspec.1]
  · simp only [h1, Bool.false_eq_true, if_false]
    by_cases h2 : c.isDigit
    · rcases hs : spanChars Char.isDigit cs with ⟨tk, rest⟩
      have hspec := spanChars_spec Char.isDigit cs tk rest hs
      simp only [h2, if_pos, hs]
      rw [strMk_append,
        show ((c :: tk) ++ rest) = c :: (tk ++ rest) from rfl, hspec.1]
    · simp only [h2, Bool.false_eq_true, if_false]
      by_cases h3 : c = ' '
      · subst h3
        rcases hs : spanChars (fun ch => ch = ' ') cs with ⟨tk, rest⟩
        have hspec := spanChars_spec (fun ch => ch = ' ') cs tk rest hs
        simp only [if_pos, hs]
        rw [strMk_append,
          show ((' ' :: tk) ++ rest) = ' ' :: (tk ++ rest) from rfl, hspec.1]
      · simp only [h3, if_false]
        by_cases h4 : c = '\n'
        · subst h4
          simp only [if_pos]
          rfl
        · simp only [h4, if_false]
          by_cases h5 : c = '"'
          · subst h5
            simp only [if_pos]
            unfold strTok
            rcases hs : spanChars (fun ch => ch ≠ '"') cs with ⟨tk, rem⟩
            have hspec := spanChars_spec (fun ch => ch ≠ '"') cs tk rem hs
            rcases rem with _ | ⟨r, rem2⟩
            · simp only []
              rfl
            · by_cases hr : r = '"'
              · subst hr
                simp only [if_pos]
                rw [strMk_append]
                congr 1
                rw [← hspec.1]
                simp
              · simp only [hr, if_false]
                rfl
          · simp only [h5, if_false]
            by_cases h6 : c = ':'
            · subst h6
              simp only [if_pos]
              unfold colonTok
              rcases cs with _ | ⟨c2, rest⟩
              · rfl
              · by_cases hc2 : c2 = ':'
                · subst hc2
                  simp only [if_pos]
                  rfl
                · simp only [hc2, if_false]
                  rfl
            · simp only [h6, if_false]
              rfl

/-- One lexing step never lengthens the remaining input. -/
theorem nextTok_len (c : Char) (cs : List Char) :
    (nextTok c cs).2.length ≤ cs.length := by
  unfold nextTok
  by_cases h1 : isAtomStart c
  · rcases hs : spanChars isAtomChar cs with ⟨tk, rest⟩
    have hspec := spanChars_spec isAtomChar cs tk rest hs
    simp only [h1, if_pos, hs]
    exact hspec.2
  · simp only [h1, Bool.false_eq_true, if_false]
    by_cases h2 : c.isDigit
    · rcases hs : spanChars Char.isDigit cs with ⟨tk, rest⟩
      have hspec := spanChars_spec Char.isDigit cs tk rest hs
      simp only [h2, if_pos, hs]
      exact hspec.2
    · simp only [h2, Bool.false_eq_true, if_false]
      by_cases h3 : c = ' '
      · rcases hs : spanChars (fun ch => ch = ' ') cs with ⟨tk, rest⟩
        have hspec := spanChars_spec (fun ch => ch = ' ') cs tk rest hs
        simp only [h3, if_pos, hs]
        exact hspec.2
      · simp only [h3, if_false]
        by_cases h4 : c = '\n'
        · simp [h4]
        · simp only [h4, if_false]
          by_cases h5 : c = '"'
          · simp only [h5, if_pos]
            unfold strTok
            rcases hs : spanChars (fun ch => ch ≠ '"') cs with ⟨tk, rem⟩
            have hspec := spanChars_spec (fun ch => ch ≠ '"') cs tk rem hs
            rcases rem with _ | ⟨r, rem2⟩
            · simp
            · by_cases hr : r = '"'
              · subst hr
                simp only [if_pos]
                have := hspec.2
                simp only [List.length_cons] at this
                omega
              · simp [hr]
          · simp only [h5, if_false]
            by_cases h6 : c = ':'
            · simp only [h6, if_pos]
              unfold colonTok
              rcases cs with _ | ⟨c2, rest⟩
              · simp
              · by_cases hc2 : c2 = ':'
                · subst hc2
                  simp
                · simp [hc2]
            · simp [h6]

/-- The modelled lexer is lossless: the lexeme texts concatenate to
the exact input characters. -/
theorem lexGo_text :
    ∀ (fuel : Nat) (cs : List Char), cs.length < fuel →
      lexText (lexGo fuel cs) = String.mk cs := by
  intro fuel
  induction fuel with
  | zero => intro cs h; omega
  | succ f ih =>
    intro cs hlen
    match cs with
    | [] => rfl
    | c :: cs2 =>
      have hrec := ih (nextTok c cs2).2 (by
        have := nextTok_len c cs2
        simp only [List.length_cons] at hlen
        omega)
      show (nextTok c cs2).1.text ++ lexText (lexGo f (nextTok c cs2).2) = _
      rw [hrec, nextTok_text]

/-- The modelled lexer reproduces the input text. -/
theorem lex_lossless (s : String) : lexText (lex s) = s := by
  unfold lex
  rw [lexGo_text (s.length + 1) s.data (by
    have hl : s.length = s.data.length := rfl
    omega)]

/-- Appending the empty string on the right is the identity. -/
theorem str_append_empty (s : String) : s ++ "" = s := by
  cases s with
  | mk data =>
    rw [show ("" : String) = String.mk [] from rfl, strMk_append]
    simp

/-- Appending the empty string on the left is the identity. -/
theorem str_empty_append (s : String) : "" ++ s = s := by
  cases s with
  | mk data =>
    rw [show ("" : String) = String.mk [] from rfl, strMk_append]
    simp

/-- Lossless round trip for every terminating parse: whenever
Parser::parse produces a tree within the recursion budget, the
concatenation of the text of every leaf token of that tree, in order,
reproduces the input text exactly.  (Together with the divergence
proved for the lambda-before-end-of-line input this settles the
parse-then-print property: it holds exactly on the inputs where the
parser terminates.) -/
theorem parse_roundtrip_lossless (fuel : Nat) (s : String) (t : GTree)
    (errs : List String) (h : parseSource fuel s = some (t, errs)) :
    leafText t = s := by
  unfold parseSource parseLexemes at h
  rcases hp : pgo fuel .rootLoop (skipWsAndEol (initState (lex s)))
    with _ | st2 <;> rw [hp] at h
  · exact absurd h (by simp)
  · have hpair := Option.some.inj h
    have heq : collapseStack st2.stack = t := congrArg Prod.fst hpair
    have hpres := pgo_pres fuel .rootLoop _ _ hp
    have hne : (initState (lex s)).stack ≠ [] := by simp [initState]
    obtain ⟨e1, n1⟩ := pres_skipKinds [.whitespace, .eol] (initState (lex s)) hne
    obtain ⟨e2, n2⟩ := hpres n1
    have hend : st2.input = [] := rootLoop_ends fuel _ _ hp
    obtain ⟨k, cs, hcol, htext⟩ := collapse_node st2.stack
    have hmeasure : ptext st2 = ptext (initState (lex s)) := e2.trans e1
    rw [ptext, ptext, hend] at hmeasure
    simp only [initState, stackTextOf, lexText, leafTextList] at hmeasure
    rw [str_append_empty, str_empty_append, str_empty_append] at hmeasure
    rw [← heq, hcol]
    rw [show leafText (.node k cs) = leafTextList cs from rfl, htext,
      hmeasure, lex_lossless]
